import Mathlib

/-!
# BeautyDrop bot — verification of the extraction/normalization core

Shallow embedding of the product-data extraction and normalization pipeline
of `bot.mjs` (BeautyDrop deals scraper).  JavaScript numbers are modelled as
exact rationals (`Rat`): none of the verified properties depends on binary
floating-point rounding or on overflow to `Infinity`.  Strings are modelled
as Lean `String`/`List Char`; the character-level parsing functions work on
`List Char` and are wrapped for `String`.
-/

namespace BeautyDrop

/-! ## JS numeric primitives -/

/-- Characters that survive the price-cleaning step `replace(/[^\d,.\-]/g,'')`:
digits, comma, period, minus.  (`\d` in a JS regex is exactly `[0-9]`.) -/
def isPriceChar (c : Char) : Bool :=
  c.isDigit || c == ',' || c == '.' || c == '-'

/-- The cleaning prefix of `parseNumberLocalized` / `getNum`:
`s.replace(/&nbsp;/g,' ').replace(/\s+/g,' ').trim().replace(/[^\d,.\-]/g,'')`.
The entity/whitespace normalization only produces spaces and every space is
removed by the final character filter, so the composite is that filter. -/
def cleanPrice (l : List Char) : List Char :=
  l.filter isPriceChar

/-- Value of a digit string, most significant digit first
(the digits of the integral or fractional part of a JS number literal). -/
def digitsVal (l : List Char) : Nat :=
  l.foldl (fun acc c => 10 * acc + (c.toNat - 48)) 0

/-- `String.prototype.lastIndexOf` for a single character: `-1` if absent,
otherwise the largest index at which the character occurs. -/
def lastIndexOf (c : Char) : List Char → Int
  | [] => -1
  | x :: xs =>
    let r := lastIndexOf c xs
    if r ≥ 0 then r + 1 else if x = c then 0 else -1

/-- `String.prototype.replace(c, d)` with a one-character pattern:
replaces only the first occurrence. -/
def replaceFirst (c d : Char) : List Char → List Char
  | [] => []
  | x :: xs => if x = c then d :: xs else x :: replaceFirst c d xs

/-- The sign prefix accepted by JS `Number()`: an optional leading `-` or `+`. -/
def jsSignSplit (l : List Char) : Rat × List Char :=
  match l with
  | [] => (1, [])
  | x :: xs =>
    if x = '-' then (-1, xs)
    else if x = '+' then (1, xs)
    else (1, x :: xs)

/-- The unsigned body of a JS decimal literal: `digits`, `digits.digits`,
`digits.` or `.digits` (at least one digit overall, no second dot).
Exponents, hex and `Infinity` cannot occur here: every letter has been
removed by `cleanPrice` before `Number()` is reached. -/
def jsNumBody (body : List Char) : Option Rat :=
  if body = [] then none
  else
    let i := body.takeWhile (· ≠ '.')
    match body.dropWhile (· ≠ '.') with
    | [] => if i.all Char.isDigit then some ((digitsVal i : Rat)) else none
    | _ :: f =>
      if (i ++ f).all Char.isDigit ∧ i ++ f ≠ [] then
        some ((digitsVal i : Rat) + (digitsVal f : Rat) / (10 : Rat) ^ f.length)
      else none

/-- JS `Number(s)` on the strings reachable from the cleaned price text
(digits, `,`, `.`, `-`).  `Number('')` is `0`; a remaining comma, a misplaced
minus or a second dot make the result `NaN`, modelled as `none`. -/
def jsNumberL (l : List Char) : Option Rat :=
  if l = [] then some 0
  else
    let p := jsSignSplit l
    (jsNumBody p.2).map (fun q => p.1 * q)

/-- `Math.round(x)`: round half toward positive infinity. -/
def jsRound (x : Rat) : Int := Int.floor (x + 1/2)

/-- `Math.round(x * 10) / 10`: round to one decimal place, half up. -/
def jsRound1 (x : Rat) : Rat := (jsRound (x * 10) : Rat) / 10

/-! ## parseNumberLocalized (bot.mjs lines 307–325 / part_000 lines 103–119) -/

/-- The separator-normalization step of `parseNumberLocalized`: if both `,`
and `.` occur, the kind occurring last decides (comma last: drop all periods
and turn the first comma into a period; period last: drop all commas); a
lone comma is turned into a period. -/
def normalizeSeps (l : List Char) : List Char :=
  if ',' ∈ l ∧ '.' ∈ l then
    if lastIndexOf ',' l > lastIndexOf '.' l then
      replaceFirst ',' '.' (l.filter (· ≠ '.'))
    else
      l.filter (· ≠ ',')
  else if ',' ∈ l then
    replaceFirst ',' '.' l
  else l

/-- `parseNumberLocalized` on the characters of a (non-null) string input. -/
def parseNumberLocalizedL (l : List Char) : Option Rat :=
  jsNumberL (normalizeSeps (cleanPrice l))

/-- `parseNumberLocalized(input)` for a string input (the `input == null`
guard of the source is outside the `String` domain). -/
def parseNumberLocalized (s : String) : Option Rat :=
  parseNumberLocalizedL s.data

/-- `getNum` from the DOM fallback (`extractFromDom`): identical separator
logic, but with an extra `if (!s) return null` guard, so the empty string is
`null` rather than `Number('') = 0`. -/
def getNum (s : String) : Option Rat :=
  if s = "" then none else parseNumberLocalizedL s.data

/-! ## computeDiscount (bot.mjs lines 343–349 / part_000 lines 140–146) -/

/-- `computeDiscount(priceNew, priceOld)`; `none` plays the role of both
`null` inputs and the `NaN` guard (every `Rat` is a finite number). -/
def computeDiscount (priceNew priceOld : Option Rat) : Option Rat :=
  match priceNew, priceOld with
  | some n, some o =>
    if o ≤ 0 ∨ n ≥ o then none
    else some (jsRound1 (((o - n) / o) * 100))
  | _, _ => none

/-! ## detectCurrencyFromText (bot.mjs lines 326–342) -/

/-- Is `needle` a prefix of `hay`? (Boolean, for substring tests.) -/
def isPrefixList : List Char → List Char → Bool
  | [], _ => true
  | _ :: _, [] => false
  | a :: as, b :: bs => a == b && isPrefixList as bs

/-- Does `needle` occur as a contiguous substring of `hay`?  Models a JS
regex alternation of literal strings tested against `hay`. -/
def hasSubList (needle : List Char) : List Char → Bool
  | [] => needle.isEmpty
  | b :: bs => isPrefixList needle (b :: bs) || hasSubList needle bs

/-- Substring test on strings. -/
def strHas (hay needle : String) : Bool :=
  hasSubList needle.data hay.data

/-- `toLowerCase` (ASCII; the sources only compare ASCII identifiers and
codes case-insensitively).  Implemented by mapping over the character list
so that concrete instances evaluate. -/
def jsToLower (s : String) : String :=
  String.mk (s.data.map Char.toLower)

/-- `toUpperCase` (ASCII), likewise list-based. -/
def jsToUpper (s : String) : String :=
  String.mk (s.data.map Char.toUpper)

/-- `String.prototype.endsWith`, via the reversed character lists. -/
def strEndsWith (s suffix : String) : Bool :=
  isPrefixList suffix.data.reverse s.data.reverse

/-- `detectCurrencyFromText(txt)`: ordered symbol/code matching, first match
wins.  `toUpperCase` is modelled by ASCII `String.toUpper`, so the lowercase
forms of `ZŁ`/`KČ` are not recognized — none of the verified claims exercises
non-ASCII case folding. -/
def detectCurrencyFromText (txt : String) : Option String :=
  if txt = "" then none
  else
    let s := jsToUpper txt
    if txt.contains '€' || strHas s "EUR" then some "EUR"
    else if txt.contains '£' || strHas s "GBP" then some "GBP"
    else if strHas s "PLN" || strHas s "ZŁ" then some "PLN"
    else if strHas s "CHF" then some "CHF"
    else if strHas s "CZK" || strHas s "KČ" then some "CZK"
    else if strHas s "HUF" || strHas s "FT" then some "HUF"
    else if strHas s "RON" || strHas s "LEI" then some "RON"
    else if strHas s "BGN" then some "BGN"
    else if strHas s "DKK" then some "DKK"
    else if strHas s "SEK" then some "SEK"
    else if strHas s "NOK" then some "NOK"
    else if strHas s "TRY" || strHas s "TL" then some "TRY"
    else none

/-! ## Country / currency resolution -/

/-- `guessCountryFromHost(host)` (bot.mjs lines 271–297): top-level-domain
suffix map, `null` when no suffix matches. -/
def guessCountryFromHost (host : String) : Option String :=
  let h := jsToLower host
  if strEndsWith h ".tr" then some "TR"
  else if strEndsWith h ".de" then some "DE"
  else if strEndsWith h ".fr" then some "FR"
  else if strEndsWith h ".it" then some "IT"
  else if strEndsWith h ".es" then some "ES"
  else if strEndsWith h ".nl" then some "NL"
  else if strEndsWith h ".be" then some "BE"
  else if strEndsWith h ".at" then some "AT"
  else if strEndsWith h ".ch" then some "CH"
  else if strEndsWith h ".pl" then some "PL"
  else if strEndsWith h ".cz" then some "CZ"
  else if strEndsWith h ".sk" then some "SK"
  else if strEndsWith h ".hu" then some "HU"
  else if strEndsWith h ".ro" then some "RO"
  else if strEndsWith h ".bg" then some "BG"
  else if strEndsWith h ".gr" then some "GR"
  else if strEndsWith h ".pt" then some "PT"
  else if strEndsWith h ".dk" then some "DK"
  else if strEndsWith h ".se" then some "SE"
  else if strEndsWith h ".no" then some "NO"
  else if strEndsWith h ".fi" then some "FI"
  else if strEndsWith h ".ie" then some "IE"
  else if strEndsWith h ".co.uk" || strEndsWith h ".uk" then some "UK"
  else none

/-- `defaultCurrencyForCountry(country)` (bot.mjs lines 298–306). -/
def defaultCurrencyForCountry (country : String) : Option String :=
  if country = "TR" then some "TRY"
  else if country = "DE" then some "EUR"
  else if country = "FR" then some "EUR"
  else if country = "IT" then some "EUR"
  else if country = "ES" then some "EUR"
  else if country = "NL" then some "EUR"
  else if country = "BE" then some "EUR"
  else if country = "AT" then some "EUR"
  else if country = "CH" then some "CHF"
  else if country = "PL" then some "PLN"
  else if country = "CZ" then some "CZK"
  else if country = "SK" then some "EUR"
  else if country = "HU" then some "HUF"
  else if country = "RO" then some "RON"
  else if country = "BG" then some "BGN"
  else if country = "GR" then some "EUR"
  else if country = "PT" then some "EUR"
  else if country = "DK" then some "DKK"
  else if country = "SE" then some "SEK"
  else if country = "NO" then some "NOK"
  else if country = "FI" then some "EUR"
  else if country = "IE" then some "EUR"
  else if country = "UK" then some "GBP"
  else none

/-- Modelled from the spec: a path segment that is a locale hint, of the
shape `xx-yy` (two letters, dash, two letters, e.g. `es-es`), resolving to
the upper-cased market part.  The path-hint component of `resolveCountry`
is absent from the source files under verification (only the plain
TLD resolver `guessCountryFromHost` survives there). -/
def localeSegCountry (seg : String) : Option String :=
  match seg.data with
  | [a, b, '-', c, d] =>
    if a.isAlpha && b.isAlpha && c.isAlpha && d.isAlpha then
      some (String.mk [c.toUpper, d.toUpper])
    else none
  | _ => none

/-- Split a character list on `/` (the segments of a URL path). -/
def splitOnSlash : List Char → List (List Char)
  | [] => [[]]
  | x :: xs =>
    match splitOnSlash xs with
    | [] => [[]]
    | seg :: rest => if x = '/' then [] :: seg :: rest else (x :: seg) :: rest

/-- Modelled from the spec: the first locale hint among the `/`-separated
segments of the URL path (e.g. `/es-es/p/123` hints `ES`). -/
def pathHintCountry (path : String) : Option String :=
  ((splitOnSlash path.data).map String.mk).findSome? localeSegCountry

/-- Modelled from the spec: `resolveCountry(hostnameOrUrl)` applying, in
priority order, (a) an explicit host-to-country override table, (b) a
path-segment locale hint, (c) the top-level-domain map (taken verbatim from
the source's `guessCountryFromHost`), (d) `"UNK"`.  The override table and
path hints are missing from the source files under verification (the README
refers to an `OVERRIDES` table of a later revision), so they are modelled
from the spec with the table as an explicit parameter. -/
def resolveCountry (overrides : List (String × String)) (host path : String) : String :=
  match overrides.lookup host with
  | some c => c
  | none =>
    match pathHintCountry path with
    | some c => c
    | none =>
      match guessCountryFromHost host with
      | some c => c
      | none => "UNK"

/-! ## JSON values and `JSON.parse` (for `safeJsonParse`) -/

mutual
/-- JSON values, as produced by `JSON.parse` (numbers as exact rationals).
Arrays and objects hold their children through the mutual types
`JsonList`/`JsonObj` so that all recursions stay structural (and therefore
evaluate inside the kernel). -/
inductive Json where
  | null : Json
  | bool : Bool → Json
  | num : Rat → Json
  | str : String → Json
  | arr : JsonList → Json
  | obj : JsonObj → Json

/-- The elements of a JSON array. -/
inductive JsonList where
  | nil : JsonList
  | cons : Json → JsonList → JsonList

/-- The key/value bindings of a JSON object, in document order. -/
inductive JsonObj where
  | nil : JsonObj
  | cons : String → Json → JsonObj → JsonObj
end

/-- Back to an ordinary list (JS iterates arrays as plain lists). -/
def JsonList.toList : JsonList → List Json
  | .nil => []
  | .cons j rest => j :: rest.toList

/-- Wrap an ordinary list (used by the parser). -/
def JsonList.ofList : List Json → JsonList
  | [] => .nil
  | j :: rest => .cons j (JsonList.ofList rest)

/-- Wrap a binding list (used by the parser). -/
def JsonObj.ofList : List (String × Json) → JsonObj
  | [] => .nil
  | (k, v) :: rest => .cons k v (JsonObj.ofList rest)

/-- Look up a key; with duplicate keys `JSON.parse` keeps the *last*
binding, hence the tail is consulted first. -/
def JsonObj.find (kvs : JsonObj) (k : String) : Option Json :=
  match kvs with
  | .nil => none
  | .cons k' v rest =>
    match rest.find k with
    | some r => some r
    | none => if k' == k then some v else none

/-- Property access `j[k]`: `none` models `undefined`. -/
def Json.getField (j : Json) (k : String) : Option Json :=
  match j with
  | .obj kvs => kvs.find k
  | _ => none

/-- JS truthiness of a JSON value (`NaN` cannot arise from `JSON.parse`). -/
def jsTruthy : Json → Bool
  | .null => false
  | .bool b => b
  | .num q => q != 0
  | .str s => s != ""
  | .arr _ => true
  | .obj _ => true

mutual
/-- `String(v)` for JSON values.  Strings are themselves; arrays join their
elements with `,` (null elements as empty); objects print as
`[object Object]`.  Number rendering is an injective placeholder for the JS
decimal formatting — no verified claim compares a number's string form
beyond (in)equality with non-numeric text. -/
def jsToStr : Json → String
  | .null => "null"
  | .bool b => if b then "true" else "false"
  | .num q => toString q.num ++ (if q.den = 1 then "" else "d" ++ toString q.den)
  | .str s => s
  | .arr xs => jsToStrList xs
  | .obj _ => "[object Object]"

/-- Join the array elements with `,`; a `null` element prints as empty. -/
def jsToStrList : JsonList → String
  | .nil => ""
  | .cons j .nil => (match j with | .null => "" | j' => jsToStr j')
  | .cons j rest =>
    (match j with | .null => "" | j' => jsToStr j') ++ "," ++ jsToStrList rest
end

/-- JSON whitespace. -/
def isJsonWs (c : Char) : Bool :=
  c == ' ' || c == '\t' || c == '\n' || c == '\r'

/-- Skip JSON whitespace. -/
def skipWs (l : List Char) : List Char :=
  l.dropWhile isJsonWs

/-- Hexadecimal digit value (for `\uXXXX` escapes). -/
def hexVal (c : Char) : Option Nat :=
  if c.isDigit then some (c.toNat - 48)
  else if 'a' ≤ c ∧ c ≤ 'f' then some (c.toNat - 87)
  else if 'A' ≤ c ∧ c ≤ 'F' then some (c.toNat - 55)
  else none

/-- JSON string body after the opening quote: characters up to the closing
quote, with the standard escapes.  A `\uXXXX` escape becomes the character
of that code point (lone surrogates degrade to the null character — not
reachable in any verified claim).  Raw control characters are rejected as in
`JSON.parse`. -/
def pStr : Nat → List Char → Option (List Char × List Char)
  | 0, _ => none
  | _ + 1, [] => none
  | fuel + 1, c :: rest =>
    if c = '"' then some ([], rest)
    else if c = '\\' then
      match rest with
      | [] => none
      | e :: rest' =>
        let dec : Option (Char × List Char) :=
          if e = '"' then some ('"', rest')
          else if e = '\\' then some ('\\', rest')
          else if e = '/' then some ('/', rest')
          else if e = 'b' then some (Char.ofNat 8, rest')
          else if e = 'f' then some (Char.ofNat 12, rest')
          else if e = 'n' then some ('\n', rest')
          else if e = 'r' then some (Char.ofNat 13, rest')
          else if e = 't' then some ('\t', rest')
          else if e = 'u' then
            match rest' with
            | h1 :: h2 :: h3 :: h4 :: rest'' =>
              match hexVal h1, hexVal h2, hexVal h3, hexVal h4 with
              | some a, some b, some c', some d =>
                some (Char.ofNat (((a * 16 + b) * 16 + c') * 16 + d), rest'')
              | _, _, _, _ => none
            | _ => none
          else none
        match dec with
        | some (ch, r) => (pStr fuel r).map (fun p => (ch :: p.1, p.2))
        | none => none
    else if c.toNat < 32 then none
    else (pStr fuel rest).map (fun p => (c :: p.1, p.2))

/-- JSON number at the head of the input: `-?int(.frac)?((e|E)(+|-)?digits)?`
with the strict leading-zero rule, valued exactly as a rational. -/
def pNum (l : List Char) : Option (Rat × List Char) :=
  let p := match l with
    | '-' :: r => ((-1 : Rat), r)
    | _ => ((1 : Rat), l)
  let ds := p.2.takeWhile Char.isDigit
  let l1 := p.2.dropWhile Char.isDigit
  if ds = [] then none
  else if ds.head? = some '0' ∧ ds.length > 1 then none
  else
    let fracP : Option (List Char × List Char) :=
      match l1 with
      | '.' :: r =>
        let f := r.takeWhile Char.isDigit
        if f = [] then none else some (f, r.dropWhile Char.isDigit)
      | _ => some ([], l1)
    match fracP with
    | none => none
    | some (f, l2) =>
      let expP : Option (Int × List Char) :=
        match l2 with
        | 'e' :: r | 'E' :: r =>
          let q := match r with
            | '-' :: r' => ((-1 : Int), r')
            | '+' :: r' => ((1 : Int), r')
            | _ => ((1 : Int), r)
          let es := q.2.takeWhile Char.isDigit
          if es = [] then none
          else some (q.1 * (digitsVal es : Int), q.2.dropWhile Char.isDigit)
        | _ => some (0, l2)
      match expP with
      | none => none
      | some (e, l3) =>
        let mant : Rat := (digitsVal ds : Rat) + (digitsVal f : Rat) / (10 : Rat) ^ f.length
        let scaled : Rat :=
          if e ≥ 0 then mant * (10 : Rat) ^ e.toNat else mant / (10 : Rat) ^ (-e).toNat
        some (p.1 * scaled, l3)

mutual
/-- Fuel-based recursive-descent JSON parser (value, array tail, object
tail).  The fuel only bounds recursion depth; `jsonParse` supplies enough
for any input of the given length. -/
def pVal : Nat → List Char → Option (Json × List Char)
  | 0, _ => none
  | fuel + 1, l =>
    match skipWs l with
    | 'n' :: 'u' :: 'l' :: 'l' :: r => some (.null, r)
    | 't' :: 'r' :: 'u' :: 'e' :: r => some (.bool true, r)
    | 'f' :: 'a' :: 'l' :: 's' :: 'e' :: r => some (.bool false, r)
    | '"' :: r => (pStr (r.length + 1) r).map (fun p => (.str (String.mk p.1), p.2))
    | '[' :: r => (pArrTail fuel (skipWs r)).map
        (fun p => (.arr (JsonList.ofList p.1), p.2))
    | '{' :: r => (pObjTail fuel (skipWs r)).map
        (fun p => (.obj (JsonObj.ofList p.1), p.2))
    | l' => (pNum l').map (fun p => (.num p.1, p.2))

def pArrTail : Nat → List Char → Option (List Json × List Char)
  | 0, _ => none
  | fuel + 1, l =>
    match l with
    | ']' :: r => some ([], r)
    | _ =>
      match pVal fuel l with
      | none => none
      | some (j, r) =>
        match skipWs r with
        | ',' :: r' => (pArrTail fuel (skipWs r')).map (fun p => (j :: p.1, p.2))
        | ']' :: r' => some ([j], r')
        | _ => none

def pObjTail : Nat → List Char → Option (List (String × Json) × List Char)
  | 0, _ => none
  | fuel + 1, l =>
    match l with
    | '}' :: r => some ([], r)
    | '"' :: r =>
      match pStr (r.length + 1) r with
      | none => none
      | some (k, r1) =>
        match skipWs r1 with
        | ':' :: r2 =>
          match pVal fuel r2 with
          | none => none
          | some (v, r3) =>
            match skipWs r3 with
            | ',' :: r4 =>
              match skipWs r4 with
              | '"' :: _ => (pObjTail fuel (skipWs r4)).map
                  (fun p => ((String.mk k, v) :: p.1, p.2))
              | _ => none
            | '}' :: r4 => some ([(String.mk k, v)], r4)
            | _ => none
        | _ => none
    | _ => none
end

/-- `JSON.parse(s)`: parse one value and require only whitespace after it. -/
def jsonParse (s : String) : Option Json :=
  match pVal (s.length * 2 + 8) s.data with
  | some (j, r) => if skipWs r = [] then some j else none
  | none => none

/-- `safeJsonParse(txt)` (bot.mjs line 380): `JSON.parse` with the failure
exception converted into `null`. -/
def safeJsonParse (s : String) : Option Json :=
  jsonParse s

/-! ## ProductRecord and dedupe -/

/-- `trim(s, n)` (bot.mjs line 268): truncate to `n` characters with an
ellipsis; the empty (falsy) string maps to itself. -/
def trimTo (s : String) (n : Nat) : String :=
  if s = "" then ""
  else if s.length > n then s.take n ++ "…" else s

/-- A product record as pushed by the extractors (field names follow the
source; prices are `null`-able numbers). -/
structure Item where
  source : String
  name : String
  brand : Option String
  price_new : Option Rat
  price_old : Option Rat
  discount_pct : Option Rat
  currency : Option String
  availability : Option String
  url : String
  image : Option String
  store : String
  country : String
deriving DecidableEq, Repr

/-- The string component `${it.price_new ?? ''}` of the dedupe key: `''`
for `null`, otherwise an injective rendering of the number (a stand-in for
JS number-to-string, which is injective on numbers; only key equality is
observable downstream). -/
def numKeyStr : Option Rat → String
  | none => ""
  | some q => toString q.num ++ "d" ++ toString q.den

/-- The dedupe identity key
`` `${(it.name||'').toLowerCase()}|${it.url}|${it.price_new ?? ''}|${it.currency ?? ''}` ``
(bot.mjs line 655).  The `sha1` wrapper is modelled as the identity on key
strings (an injective hash).  Note only `name` is lower-cased. -/
def dedupeKey (it : Item) : String :=
  jsToLower it.name ++ "|" ++ it.url ++ "|" ++ numKeyStr it.price_new ++ "|"
    ++ it.currency.getD ""

/-- The loop of `dedupe` with its `seen` set (JS `Set` of key hashes,
modelled as a list used only through membership). -/
def dedupeAux (seen : List String) : List Item → List Item
  | [] => []
  | it :: rest =>
    if dedupeKey it ∈ seen then dedupeAux seen rest
    else it :: dedupeAux (dedupeKey it :: seen) rest

/-- `dedupe(items)` (bot.mjs lines 651–661 / part_000 lines 256–266). -/
def dedupe (items : List Item) : List Item :=
  dedupeAux [] items

/-- First-occurrence filter: keep the head, drop every later record whose
key equals the head's key, recurse.  This is the declarative description of
`dedupe` that claim C3 (amended) asserts. -/
def keepFirstByKey : List Item → List Item
  | [] => []
  | it :: rest =>
    it :: keepFirstByKey (rest.filter (fun x => dedupeKey x != dedupeKey it))
termination_by l => l.length
decreasing_by
  simp only [List.length_cons]
  exact Nat.lt_succ_of_le (rest.length_filter_le _)

/-- The spec's claimed identity tuple for deduplication: the
*case-insensitive* tuple (name, url, priceCurrent, currency).  Stated from
the spec's words, to be compared with the source's `dedupeKey`. -/
def specCiTuple (it : Item) : String × String × Option Rat × Option String :=
  (jsToLower it.name, jsToLower it.url, it.price_new, it.currency.map jsToLower)

/-! ## Structured-data extractor (extractFromLdJson, bot.mjs lines 382–433) -/

/-- The nullish-coalescing chain `a ?? b ?? … ?? null`: the first operand
that is neither `undefined` (`none`) nor `null`. -/
def firstNonNullish : List (Option Json) → Option Json
  | [] => none
  | x :: xs =>
    match x with
    | some .null => firstNonNullish xs
    | some v => some v
    | none => firstNonNullish xs

/-- `parseNumberLocalized` applied to a raw JSON value (the source calls it
on strings, numbers, or whatever sits in the offer field).  For a number the
source stringifies and re-parses it, which round-trips for the decimal
numbers `JSON.parse` produces; modelled as the identity on numbers. -/
def parseJV : Option Json → Option Rat
  | none => none
  | some .null => none
  | some (.num q) => some q
  | some (.str s) => parseNumberLocalized s
  | some v => parseNumberLocalized (jsToStr v)

/-- `g.k || ''` for a field expected to be text: the field's string if
truthy, else the empty string (a truthy non-string value is kept by JS as-is
and only stringified downstream; it is modelled by its string form). -/
def jsFieldStr (g : Json) (k : String) : String :=
  match g.getField k with
  | some v => if jsTruthy v then jsToStr v else ""
  | none => ""

/-- `typeof g.brand === 'object' ? (g.brand?.name || '') : (g.brand || '')`;
note `typeof null === 'object'` and `null?.name` is `undefined`. -/
def ldBrand (g : Json) : String :=
  match g.getField "brand" with
  | some (.obj kvs) => jsFieldStr (.obj kvs) "name"
  | some .null => ""
  | some (.arr _) => ""
  | some v => if jsTruthy v then jsToStr v else ""
  | none => ""

/-- `Array.isArray(g.image) ? g.image[0] : (g.image || '')`
(`[][0]` is `undefined`, modelled as the empty string). -/
def ldImage (g : Json) : String :=
  match g.getField "image" with
  | some (.arr (.cons x _)) => jsToStr x
  | some (.arr .nil) => ""
  | some v => if jsTruthy v then jsToStr v else ""
  | none => ""

/-- `g.url || baseUrl`. -/
def ldUrl (g : Json) (baseUrl : String) : String :=
  let u := jsFieldStr g "url"
  if u = "" then baseUrl else u

/-- `[].concat(g['@type'] || [])`: the type list of a structured node. -/
def ldTypes (g : Json) : List Json :=
  match g.getField "@type" with
  | some v => if jsTruthy v then (match v with | .arr xs => xs.toList | _ => [v]) else []
  | none => []

/-- `types.some(t => String(t).toLowerCase() === 'product')`. -/
def ldIsProduct (g : Json) : Bool :=
  (ldTypes g).any (fun t => jsToLower (jsToStr t) == "product")

/-- `g.offers ? (Array.isArray(g.offers) ? g.offers : [g.offers]) : []`. -/
def ldOffers (g : Json) : List Json :=
  match g.getField "offers" with
  | some v => if jsTruthy v then (match v with | .arr xs => xs.toList | _ => [v]) else []
  | none => []

/-- The current price of one offer:
`typeof ofr.price === 'number' ? ofr.price
 : parseNumberLocalized(ofr.price ?? ofr.lowPrice ?? ofr.highPrice ?? null)`. -/
def ldPNew (ofr : Json) : Option Rat :=
  match ofr.getField "price" with
  | some (.num q) => some q
  | _ => parseJV (firstNonNullish
      [ofr.getField "price", ofr.getField "lowPrice", ofr.getField "highPrice"])

/-- The old-price candidate
`ofr.listPrice ?? ofr.highPrice ?? ofr.priceSpecification?.price ?? null`,
then `typeof`-dispatched through `parseNumberLocalized`. -/
def ldPOld (ofr : Json) : Option Rat :=
  let psPrice : Option Json :=
    match ofr.getField "priceSpecification" with
    | some (.obj kvs) => Json.getField (.obj kvs) "price"
    | _ => none
  let cand := firstNonNullish
    [ofr.getField "listPrice", ofr.getField "highPrice", psPrice]
  match cand with
  | some (.num q) => some q
  | c => parseJV c

/-- `ofr.priceCurrency || null`. -/
def ldCurrency (ofr : Json) : Option String :=
  match ofr.getField "priceCurrency" with
  | some v => if jsTruthy v then some (jsToStr v) else none
  | none => none

/-- `ofr.availability ?? null` (modelled by its string form; the field is
passed through opaquely). -/
def ldAvailability (ofr : Json) : Option String :=
  match ofr.getField "availability" with
  | some .null => none
  | some v => some (jsToStr v)
  | none => none

/-- The record pushed for one offer of a product node (bot.mjs lines
411–427): `price_old` is kept only when strictly above `price_new`, and
`discount_pct` comes from `computeDiscount`. -/
def ldOfferItem (g ofr : Json) (baseUrl host country : String) : Item :=
  let pNew := ldPNew ofr
  let pOld := ldPOld ofr
  let price_old : Option Rat :=
    match pNew, pOld with
    | some n, some o => if o > n then some o else none
    | _, _ => none
  { source := "ldjson"
    name := trimTo (jsFieldStr g "name") 180
    brand := some (trimTo (ldBrand g) 80)
    price_new := pNew
    price_old := price_old
    discount_pct := computeDiscount pNew price_old
    currency := ldCurrency ofr
    availability := ldAvailability ofr
    url := ldUrl g baseUrl
    image := some (ldImage g)
    store := host
    country := country }

/-- The all-null record pushed for a product node with zero offers
(bot.mjs lines 403–410). -/
def ldZeroOfferItem (g : Json) (baseUrl host country : String) : Item :=
  { source := "ldjson"
    name := trimTo (jsFieldStr g "name") 180
    brand := some (trimTo (ldBrand g) 80)
    price_new := none
    price_old := none
    discount_pct := none
    currency := none
    availability := none
    url := ldUrl g baseUrl
    image := some (ldImage g)
    store := host
    country := country }

/-- The records contributed by one graph node. -/
def ldItemsOfGraphNode (g : Json) (baseUrl host country : String) : List Item :=
  if ldIsProduct g then
    match ldOffers g with
    | [] => [ldZeroOfferItem g baseUrl host country]
    | offers => offers.map (fun ofr => ldOfferItem g ofr baseUrl host country)
  else []

/-- `Array.isArray(node['@graph']) ? node['@graph'] : [node]`. -/
def ldGraphs (node : Json) : List Json :=
  match node.getField "@graph" with
  | some (.arr g) => g.toList
  | _ => [node]

/-- The records contributed by one parsed `ld+json` script block
(`const nodes = Array.isArray(obj) ? obj : [obj]` and the graph walk). -/
def ldItemsOfJson (obj : Json) (baseUrl host country : String) : List Item :=
  (match obj with | .arr xs => xs.toList | _ => [obj]).flatMap
    (fun node => (ldGraphs node).flatMap
      (fun g => ldItemsOfGraphNode g baseUrl host country))

/-- `extractFromLdJson` over the bodies of the page's
`<script type="application/ld+json">` blocks in document order (the regex
scan of the raw HTML is modelled as that ordered list of block bodies):
each block is `safeJsonParse`d, unparsable blocks contribute nothing, and
the per-block records are concatenated. -/
def ldItemsOfBlocks (blocks : List String) (baseUrl host country : String) : List Item :=
  blocks.flatMap (fun b =>
    match safeJsonParse b with
    | none => []
    | some obj => ldItemsOfJson obj baseUrl host country)

/-! ## Meta-tag extractor (extractFromOg, bot.mjs lines 435–460) -/

/-- `extractFromOg` after the four meta-tag regex matches (modelled by their
captured contents: `none` when the tag is absent; a matched capture
`([^"']+)` is a nonempty string).  Pushes at most one record, with
`price_old` always `null`. -/
def ogItems (amt currTag title img : Option String)
    (baseUrl host country : String) : List Item :=
  match amt with
  | none => []
  | some a =>
    [{ source := "og"
       name := trimTo (title.getD "") 180
       brand := none
       price_new := parseNumberLocalized a
       price_old := none
       discount_pct := none
       currency := (match currTag with
         | some c => if c ≠ "" then some c else detectCurrencyFromText a
         | none => detectCurrencyFromText a)
       availability := none
       url := baseUrl
       image := img
       store := host
       country := country }]

/-! ## DOM fallback extractor (extractFromDom, bot.mjs lines 462–583) -/

/-- A candidate record as pushed inside `page.evaluate` by scan steps 1–3
(no `store`/`country` yet; those are attached by `scrapeDetail`). -/
structure DomItem where
  source : String
  name : String
  brand : Option String
  price_new : Option Rat
  price_old : Option Rat
  discount_pct : Option Rat
  currency : Option String
  availability : Option String
  url : String
  image : String
deriving DecidableEq, Repr

/-- `findOldPrice()` (bot.mjs lines 559–567) over the text contents of the
strike-through/old-price elements in document order: the first text with a
numeric `getNum` value is returned — with no sign or positivity filter, and
no further scanning past it. -/
def findOldPriceFromTexts : List String → Option Rat
  | [] => none
  | t :: ts =>
    match getNum t with
    | some n => some n
    | none => findOldPriceFromTexts ts

/-- Modelled from the spec's words (claim C6): the first numeric value
*greater than zero* among the strike-through texts, skipping non-positive
numeric values.  To be compared with the source's `findOldPriceFromTexts`. -/
def specFirstPositiveFromTexts : List String → Option Rat
  | [] => none
  | t :: ts =>
    match getNum t with
    | some n => if n > 0 then some n else specFirstPositiveFromTexts ts
    | none => specFirstPositiveFromTexts ts

/-- The per-candidate back-fill of the page-wide old price (bot.mjs lines
571–579): only candidates lacking `price_old`, with a numeric `price_new`
strictly below the old price, are updated; `discount_pct` is recomputed
inline as `Math.round(((old-new)/old*100)*10)/10`. -/
def applyOldPrice (oldPrice : Rat) (it : DomItem) : DomItem :=
  match it.price_old, it.price_new with
  | none, some n =>
    if oldPrice > n then
      { it with price_old := some oldPrice,
                discount_pct := some (jsRound1 (((oldPrice - n) / oldPrice) * 100)) }
    else it
  | _, _ => it

/-- Scan step 4 of `extractFromDom`: find the page-wide old price among the
strike-element texts and back-fill it onto the candidates of steps 1–3. -/
def domOldPriceStep (strikeTexts : List String) (out : List DomItem) : List DomItem :=
  match findOldPriceFromTexts strikeTexts with
  | none => out
  | some op => out.map (applyOldPrice op)

/-! ## scrapeDetail and the orchestrator tail (bot.mjs lines 698–737, 770–781) -/

/-- The record conversion `scrapeDetail` applies to each DOM-fallback
candidate before appending it (bot.mjs lines 714–729). -/
def convertDomItem (host country : String) (d : DomItem) : Item :=
  { source := d.source
    name := trimTo d.name 180
    brand := d.brand
    price_new := d.price_new
    price_old := d.price_old
    discount_pct := d.discount_pct
    currency := d.currency
    availability := d.availability
    url := d.url
    image := if d.image = "" then none else some d.image
    store := host
    country := country }

/-- The item assembly of `scrapeDetail`: structured/meta records first; the
DOM fallback output is appended iff no structured/meta record has a numeric
`price_new` (`needDom = !items.some(it => it.price_new != null)`); the
result is deduplicated. -/
def scrapeDetailItems (structured : List Item) (dom : List DomItem)
    (host country : String) : List Item :=
  let needDom := !(structured.any (fun it => it.price_new.isSome))
  dedupe (if needDom then structured ++ dom.map (convertDomItem host country)
          else structured)

/-- JS truthiness of the `currency` field (`null` and `''` are falsy). -/
def strTruthy : Option String → Bool
  | none => false
  | some s => s != ""

/-- The country-based currency fallback of `scrapeUrl`
(`currency: it.currency || fallbackCurrency || it.currency`). -/
def currencyFallbackFill (fb : Option String) (items : List Item) : List Item :=
  items.map (fun it =>
    { it with currency :=
        if strTruthy it.currency then it.currency
        else if strTruthy fb then fb
        else it.currency })

/-- The cleanup tail of `scrapeUrl` (bot.mjs lines 770–781): currency
fallback, dedupe, drop records missing `name`/`url`/`price_new`, recompute
`discount_pct` through `computeDiscount`, cap at 60. -/
def finalizeItems (fb : Option String) (items : List Item) : List Item :=
  (((dedupe (currencyFallbackFill fb items)).filter
      (fun it => it.name != "" && it.url != "" && it.price_new.isSome)).map
      (fun it => { it with discount_pct := computeDiscount it.price_new it.price_old })).take 60

/-! ## Lemmas about the character-level parsing helpers -/

lemma lastIndexOf_cons_eq (c x : Char) (xs : List Char) :
    lastIndexOf c (x :: xs) =
      if lastIndexOf c xs ≥ 0 then lastIndexOf c xs + 1
      else if x = c then 0 else -1 := rfl

lemma lastIndexOf_nonneg_of_mem {c : Char} {l : List Char} (h : c ∈ l) :
    0 ≤ lastIndexOf c l := by
  induction l with
  | nil => cases h
  | cons x xs ih =>
    rw [lastIndexOf_cons_eq]
    rcases List.mem_cons.mp h with rfl | hx
    · split
      · next hr => omega
      · simp
    · have := ih hx
      split
      · next hr => omega
      · next hr => omega

lemma lastIndexOf_lt_length (c : Char) (l : List Char) :
    lastIndexOf c l < l.length := by
  induction l with
  | nil => simp [lastIndexOf]
  | cons x xs ih =>
    rw [lastIndexOf_cons_eq, List.length_cons]
    split
    · push_cast; omega
    · split <;> push_cast <;> omega

lemma lastIndexOf_eq_neg_one_of_not_mem {c : Char} {l : List Char} (h : c ∉ l) :
    lastIndexOf c l = -1 := by
  induction l with
  | nil => rfl
  | cons y ys ih =>
    have hys : c ∉ ys := fun hm => h (List.mem_cons_of_mem _ hm)
    have hy : y ≠ c := fun hy => h (by rw [hy]; exact List.mem_cons_self _ _)
    rw [lastIndexOf_cons_eq, ih hys, if_neg (by omega), if_neg hy]

lemma lastIndexOf_append_of_mem_right {c : Char} {r : List Char} (h : c ∈ r)
    (l : List Char) :
    lastIndexOf c (l ++ r) = l.length + lastIndexOf c r := by
  induction l with
  | nil => simp
  | cons x xs ih =>
    have hr : 0 ≤ lastIndexOf c r := lastIndexOf_nonneg_of_mem h
    rw [List.cons_append, lastIndexOf_cons_eq, ih, if_pos (by omega), List.length_cons]
    push_cast; ring

lemma lastIndexOf_append_of_not_mem_right {c : Char} {r : List Char} (h : c ∉ r)
    (l : List Char) :
    lastIndexOf c (l ++ r) = lastIndexOf c l := by
  induction l with
  | nil =>
    rw [List.nil_append, lastIndexOf_eq_neg_one_of_not_mem h]
    rfl
  | cons x xs ih =>
    rw [List.cons_append, lastIndexOf_cons_eq, ih, lastIndexOf_cons_eq]

lemma lastIndexOf_cons_self_of_not_mem {c : Char} {l : List Char} (h : c ∉ l) :
    lastIndexOf c (c :: l) = 0 := by
  rw [lastIndexOf_cons_eq, lastIndexOf_eq_neg_one_of_not_mem h,
    if_neg (by omega), if_pos rfl]

lemma replaceFirst_append_of_not_mem {c : Char} {pre : List Char} (h : c ∉ pre)
    (d : Char) (post : List Char) :
    replaceFirst c d (pre ++ c :: post) = pre ++ d :: post := by
  induction pre with
  | nil =>
    show (if c = c then d :: post else c :: replaceFirst c d post) = d :: post
    rw [if_pos rfl]
  | cons x xs ih =>
    have hx : x ≠ c := fun hx => h (by rw [hx]; exact List.mem_cons_self _ _)
    show (if x = c then d :: (xs ++ c :: post) else x :: replaceFirst c d (xs ++ c :: post))
        = x :: (xs ++ d :: post)
    rw [if_neg hx, ih (fun hm => h (List.mem_cons_of_mem _ hm))]

lemma mem_replaceFirst_of_two_le_count {c d : Char} {l : List Char}
    (h : 2 ≤ l.count c) : c ∈ replaceFirst c d l := by
  induction l with
  | nil => simp at h
  | cons x xs ih =>
    by_cases hx : x = c
    · subst hx
      simp only [replaceFirst, if_pos rfl]
      have : 1 ≤ xs.count x := by
        rw [List.count_cons_self] at h; omega
      exact List.mem_cons_of_mem _ (List.count_pos_iff.mp (by omega))
    · simp only [replaceFirst, if_neg hx]
      rw [List.count_cons_of_ne (fun hh => hx hh.symm)] at h
      exact List.mem_cons_of_mem _ (ih h)

lemma takeWhile_append_cons {p : Char → Bool} {l : List Char}
    (hl : ∀ c ∈ l, p c) {x : Char} (hx : ¬ p x) (r : List Char) :
    (l ++ x :: r).takeWhile p = l := by
  induction l with
  | nil =>
    rw [List.nil_append, List.takeWhile_cons, if_neg hx]
  | cons y ys ih =>
    have hy : p y := hl y (List.mem_cons_self y ys)
    rw [List.cons_append, List.takeWhile_cons, if_pos hy,
      ih (fun c hc => hl c (List.mem_cons_of_mem _ hc))]

lemma dropWhile_append_cons {p : Char → Bool} {l : List Char}
    (hl : ∀ c ∈ l, p c) {x : Char} (hx : ¬ p x) (r : List Char) :
    (l ++ x :: r).dropWhile p = x :: r := by
  induction l with
  | nil =>
    rw [List.nil_append, List.dropWhile_cons, if_neg hx]
  | cons y ys ih =>
    have hy : p y := hl y (List.mem_cons_self y ys)
    rw [List.cons_append, List.dropWhile_cons, if_pos hy,
      ih (fun c hc => hl c (List.mem_cons_of_mem _ hc))]

lemma jsNumBody_digits_dot {i f : List Char}
    (hi : ∀ c ∈ i, c.isDigit) (hf : ∀ c ∈ f, c.isDigit) (hne : i ++ f ≠ []) :
    jsNumBody (i ++ '.' :: f) =
      some ((digitsVal i : Rat) + (digitsVal f : Rat) / (10 : Rat) ^ f.length) := by
  have hi' : ∀ c ∈ i, (c ≠ '.' : Bool) := by
    intro c hc
    have : c.isDigit := hi c hc
    simp only [ne_eq, decide_eq_true_eq]
    intro hcd; subst hcd; simp [Char.isDigit] at this
  have hx : ¬ (('.' : Char) ≠ '.' : Bool) := by simp
  have hbody : (i ++ '.' :: f) ≠ [] := by simp
  rw [jsNumBody, if_neg hbody, takeWhile_append_cons hi' hx,
    dropWhile_append_cons hi' hx]
  have hall : (i ++ f).all Char.isDigit := by
    rw [List.all_eq_true]
    intro c hc
    rcases List.mem_append.mp hc with h | h
    · exact hi c h
    · exact hf c h
  show (if (i ++ f).all Char.isDigit = true ∧ i ++ f ≠ [] then
      some ((digitsVal i : Rat) + (digitsVal f : Rat) / (10 : Rat) ^ f.length)
    else none) = some ((digitsVal i : Rat) + (digitsVal f : Rat) / (10 : Rat) ^ f.length)
  rw [if_pos ⟨hall, hne⟩]

lemma comma_mem_jsSignSplit_body {l : List Char} (h : ',' ∈ l) :
    ',' ∈ (jsSignSplit l).2 := by
  cases l with
  | nil => cases h
  | cons x xs =>
    simp only [jsSignSplit]
    by_cases hx : x = '-'
    · rw [if_pos hx]
      exact (List.mem_cons.mp h).resolve_left (by rw [hx]; decide)
    · rw [if_neg hx]
      by_cases hx' : x = '+'
      · rw [if_pos hx']
        exact (List.mem_cons.mp h).resolve_left (by rw [hx']; decide)
      · rw [if_neg hx']
        exact h

lemma dropWhile_head_not {p : Char → Bool} {l : List Char} {x : Char}
    {xs : List Char} (h : l.dropWhile p = x :: xs) : ¬ p x := by
  induction l with
  | nil => simp at h
  | cons y ys ih =>
    rw [List.dropWhile_cons] at h
    by_cases hy : p y
    · rw [if_pos hy] at h
      exact ih h
    · rw [if_neg hy] at h
      cases h
      exact hy

lemma jsNumBody_none_of_comma {body : List Char} (h : ',' ∈ body) :
    jsNumBody body = none := by
  have hbody : body ≠ [] := List.ne_nil_of_mem h
  have hsplit := List.takeWhile_append_dropWhile (fun c => decide (c ≠ '.')) body
  rw [jsNumBody, if_neg hbody]
  cases hdw : body.dropWhile (fun c => decide (c ≠ '.')) with
  | nil =>
    have htw : body.takeWhile (fun c => decide (c ≠ '.')) = body := by
      rw [hdw] at hsplit; simpa using hsplit
    show (if (body.takeWhile (fun c => decide (c ≠ '.'))).all Char.isDigit = true then
        some ((digitsVal (body.takeWhile (fun c => decide (c ≠ '.'))) : Rat))
      else none) = none
    rw [htw, if_neg]
    intro hall
    rw [List.all_eq_true] at hall
    have := hall ',' h
    simp [Char.isDigit] at this
  | cons x f =>
    have hx : x = '.' := by
      have := dropWhile_head_not hdw
      simpa using this
    show (if (body.takeWhile (fun c => decide (c ≠ '.')) ++ f).all Char.isDigit = true
          ∧ body.takeWhile (fun c => decide (c ≠ '.')) ++ f ≠ [] then
        some ((digitsVal (body.takeWhile (fun c => decide (c ≠ '.'))) : Rat)
          + (digitsVal f : Rat) / (10 : Rat) ^ f.length)
      else none) = none
    rw [if_neg]
    rintro ⟨hall, -⟩
    rw [List.all_eq_true] at hall
    have hmem : ',' ∈ body.takeWhile (fun c => decide (c ≠ '.')) ++ x :: f := by
      rw [← hdw, hsplit]; exact h
    rcases List.mem_append.mp hmem with hm | hm
    · have := hall ',' (List.mem_append.mpr (Or.inl hm))
      simp [Char.isDigit] at this
    · rcases List.mem_cons.mp hm with hc | hm'
      · rw [hx] at hc; exact absurd hc (by decide)
      · have := hall ',' (List.mem_append.mpr (Or.inr hm'))
        simp [Char.isDigit] at this

lemma jsNumberL_none_of_comma {l : List Char} (h : ',' ∈ l) :
    jsNumberL l = none := by
  rw [jsNumberL, if_neg (List.ne_nil_of_mem h)]
  show Option.map (fun q => (jsSignSplit l).1 * q) (jsNumBody (jsSignSplit l).2) = none
  rw [jsNumBody_none_of_comma (comma_mem_jsSignSplit_body h)]
  rfl

lemma digit_ne_dash {c : Char} (h : c.isDigit) : c ≠ '-' := by
  intro hh; rw [hh] at h; exact absurd h (by decide)

lemma digit_ne_plus {c : Char} (h : c.isDigit) : c ≠ '+' := by
  intro hh; rw [hh] at h; exact absurd h (by decide)

lemma digit_ne_comma {c : Char} (h : c.isDigit) : c ≠ ',' := by
  intro hh; rw [hh] at h; exact absurd h (by decide)

lemma digit_ne_dot {c : Char} (h : c.isDigit) : c ≠ '.' := by
  intro hh; rw [hh] at h; exact absurd h (by decide)

lemma jsNumberL_digits_dot {i f : List Char}
    (hi : ∀ c ∈ i, c.isDigit) (hf : ∀ c ∈ f, c.isDigit) (hne : i ++ f ≠ []) :
    jsNumberL (i ++ '.' :: f) =
      some ((digitsVal i : Rat) + (digitsVal f : Rat) / (10 : Rat) ^ f.length) := by
  have hl : i ++ '.' :: f ≠ [] := by simp
  rw [jsNumberL, if_neg hl]
  show Option.map (fun q => (jsSignSplit (i ++ '.' :: f)).1 * q)
    (jsNumBody (jsSignSplit (i ++ '.' :: f)).2) = _
  have hsign : jsSignSplit (i ++ '.' :: f) = (1, i ++ '.' :: f) := by
    cases i with
    | nil => rfl
    | cons x xs =>
      have hx := hi x (List.mem_cons_self _ _)
      show (if x = '-' then ((-1 : Rat), xs ++ '.' :: f)
        else if x = '+' then ((1 : Rat), xs ++ '.' :: f)
        else ((1 : Rat), x :: (xs ++ '.' :: f))) = _
      rw [if_neg (digit_ne_dash hx), if_neg (digit_ne_plus hx)]
      rfl
  rw [hsign, jsNumBody_digits_dot hi hf hne]
  simp

lemma cleanPrice_eq_self {l : List Char} (h : ∀ c ∈ l, isPriceChar c) :
    cleanPrice l = l :=
  List.filter_eq_self.mpr h

/-! ## Claim theorems: numeric parsing (C1, C10) and discount (C2) -/

/-- **C1**: for a price string in which both a comma and a period appear,
`parseNumberLocalized` treats the separator kind appearing last as the
decimal point, removing the other kind as a thousands mark (first conjunct:
periods as thousands marks with a final comma-decimal; second conjunct:
commas as thousands marks with a final period-decimal); a lone comma is
treated as the decimal point (third conjunct); `"1.234,56"` and
`"1,234.56"` both parse to `1234.56`; and an input whose cleaned form is
not a finite number yields `null`. -/
theorem parseNumberLocalized_last_separator_spec :
    (∀ a f : List Char, (∀ c ∈ a, c.isDigit ∨ c = '.') → '.' ∈ a →
        (∀ c ∈ f, c.isDigit) → f ≠ [] →
        parseNumberLocalizedL (a ++ ',' :: f) =
          some ((digitsVal (a.filter (· ≠ '.')) : Rat)
            + (digitsVal f : Rat) / (10 : Rat) ^ f.length)) ∧
    (∀ a f : List Char, (∀ c ∈ a, c.isDigit ∨ c = ',') → ',' ∈ a →
        (∀ c ∈ f, c.isDigit) → f ≠ [] →
        parseNumberLocalizedL (a ++ '.' :: f) =
          some ((digitsVal (a.filter (· ≠ ',')) : Rat)
            + (digitsVal f : Rat) / (10 : Rat) ^ f.length)) ∧
    (∀ a f : List Char, (∀ c ∈ a, c.isDigit) → (∀ c ∈ f, c.isDigit) →
        a ++ f ≠ [] →
        parseNumberLocalizedL (a ++ ',' :: f) =
          some ((digitsVal a : Rat) + (digitsVal f : Rat) / (10 : Rat) ^ f.length)) ∧
    parseNumberLocalized "1.234,56" = some (1234.56 : Rat) ∧
    parseNumberLocalized "1,234.56" = some (1234.56 : Rat) ∧
    (∀ s : String, jsNumberL (normalizeSeps (cleanPrice s.data)) = none →
        parseNumberLocalized s = none) := by
  refine ⟨?_, ?_, ?_, ?_, ?_, fun s h => h⟩
  · -- comma last: `1.234,56` convention
    intro a f ha hdot hf hfne
    have hnca : ',' ∉ a := by
      intro hm
      rcases ha ',' hm with h | h
      · exact absurd h (by decide)
      · exact absurd h (by decide)
    have hncf : ',' ∉ f := fun hm => digit_ne_comma (hf ',' hm) rfl
    have hndf : '.' ∉ f := fun hm => digit_ne_dot (hf '.' hm) rfl
    have hclean : cleanPrice (a ++ ',' :: f) = a ++ ',' :: f := by
      apply cleanPrice_eq_self
      intro c hc
      rcases List.mem_append.mp hc with h | h
      · rcases ha c h with h' | h'
        · simp [isPriceChar, h']
        · simp [isPriceChar, h']
      · rcases List.mem_cons.mp h with h' | h'
        · simp [isPriceChar, h']
        · simp [isPriceChar, hf c h']
    show jsNumberL (normalizeSeps (cleanPrice (a ++ ',' :: f))) = _
    rw [hclean, normalizeSeps]
    have hmemc : ',' ∈ a ++ ',' :: f :=
      List.mem_append.mpr (Or.inr (List.mem_cons_self _ _))
    have hmemd : '.' ∈ a ++ ',' :: f := List.mem_append.mpr (Or.inl hdot)
    rw [if_pos ⟨hmemc, hmemd⟩]
    have hndr : '.' ∉ (',' :: f) := by
      intro hm
      rcases List.mem_cons.mp hm with h | h
      · exact absurd h (by decide)
      · exact hndf h
    have hlc : lastIndexOf ',' (a ++ ',' :: f) = a.length := by
      rw [lastIndexOf_append_of_mem_right (List.mem_cons_self _ _),
        lastIndexOf_cons_self_of_not_mem hncf, add_zero]
    have hld : lastIndexOf '.' (a ++ ',' :: f) = lastIndexOf '.' a :=
      lastIndexOf_append_of_not_mem_right hndr a
    have hgt : lastIndexOf ',' (a ++ ',' :: f) > lastIndexOf '.' (a ++ ',' :: f) := by
      rw [hlc, hld]
      exact lastIndexOf_lt_length '.' a
    have hff : f.filter (fun c => decide (c ≠ '.')) = f :=
      List.filter_eq_self.mpr (fun c hc => by simpa using digit_ne_dot (hf c hc))
    rw [if_pos hgt, List.filter_append, List.filter_cons_of_pos (by decide), hff]
    have hnfilter : ',' ∉ a.filter (fun c => decide (c ≠ '.')) := by
      intro hm
      exact hnca (List.mem_of_mem_filter hm)
    rw [replaceFirst_append_of_not_mem hnfilter]
    apply jsNumberL_digits_dot
    · intro c hc
      have hca := (List.mem_filter.mp hc).1
      have hcne : (decide (c ≠ '.')) = true := (List.mem_filter.mp hc).2
      rcases ha c hca with h | h
      · exact h
      · simp [h] at hcne
    · exact hf
    · intro hh
      exact hfne (List.append_eq_nil.mp hh).2
  · -- period last: `1,234.56` convention
    intro a f ha hcomma hf hfne
    have hnda : '.' ∉ a := by
      intro hm
      rcases ha '.' hm with h | h
      · exact absurd h (by decide)
      · exact absurd h (by decide)
    have hncf : ',' ∉ f := fun hm => digit_ne_comma (hf ',' hm) rfl
    have hndf : '.' ∉ f := fun hm => digit_ne_dot (hf '.' hm) rfl
    have hclean : cleanPrice (a ++ '.' :: f) = a ++ '.' :: f := by
      apply cleanPrice_eq_self
      intro c hc
      rcases List.mem_append.mp hc with h | h
      · rcases ha c h with h' | h'
        · simp [isPriceChar, h']
        · simp [isPriceChar, h']
      · rcases List.mem_cons.mp h with h' | h'
        · simp [isPriceChar, h']
        · simp [isPriceChar, hf c h']
    show jsNumberL (normalizeSeps (cleanPrice (a ++ '.' :: f))) = _
    rw [hclean, normalizeSeps]
    have hmemc : ',' ∈ a ++ '.' :: f := List.mem_append.mpr (Or.inl hcomma)
    have hmemd : '.' ∈ a ++ '.' :: f :=
      List.mem_append.mpr (Or.inr (List.mem_cons_self _ _))
    rw [if_pos ⟨hmemc, hmemd⟩]
    have hncr : ',' ∉ ('.' :: f) := by
      intro hm
      rcases List.mem_cons.mp hm with h | h
      · exact absurd h (by decide)
      · exact hncf h
    have hlc : lastIndexOf ',' (a ++ '.' :: f) = lastIndexOf ',' a :=
      lastIndexOf_append_of_not_mem_right hncr a
    have hld : lastIndexOf '.' (a ++ '.' :: f) = a.length := by
      rw [lastIndexOf_append_of_mem_right (List.mem_cons_self _ _),
        lastIndexOf_cons_self_of_not_mem hndf, add_zero]
    have hngt : ¬ (lastIndexOf ',' (a ++ '.' :: f) > lastIndexOf '.' (a ++ '.' :: f)) := by
      rw [hlc, hld]
      have := lastIndexOf_lt_length ',' a
      omega
    have hff : f.filter (fun c => decide (c ≠ ',')) = f :=
      List.filter_eq_self.mpr (fun c hc => by simpa using digit_ne_comma (hf c hc))
    rw [if_neg hngt, List.filter_append, List.filter_cons_of_pos (by decide), hff]
    apply jsNumberL_digits_dot
    · intro c hc
      have hca := (List.mem_filter.mp hc).1
      have hcne : (decide (c ≠ ',')) = true := (List.mem_filter.mp hc).2
      rcases ha c hca with h | h
      · exact h
      · simp [h] at hcne
    · exact hf
    · intro hh
      exact hfne (List.append_eq_nil.mp hh).2
  · -- only a comma: treated as the decimal point
    intro a f ha hf hne
    have hnca : ',' ∉ a := fun hm => digit_ne_comma (ha ',' hm) rfl
    have hclean : cleanPrice (a ++ ',' :: f) = a ++ ',' :: f := by
      apply cleanPrice_eq_self
      intro c hc
      rcases List.mem_append.mp hc with h | h
      · simp [isPriceChar, ha c h]
      · rcases List.mem_cons.mp h with h' | h'
        · simp [isPriceChar, h']
        · simp [isPriceChar, hf c h']
    show jsNumberL (normalizeSeps (cleanPrice (a ++ ',' :: f))) = _
    rw [hclean, normalizeSeps]
    have hnd : '.' ∉ a ++ ',' :: f := by
      intro hm
      rcases List.mem_append.mp hm with h | h
      · exact digit_ne_dot (ha '.' h) rfl
      · rcases List.mem_cons.mp h with h' | h'
        · exact absurd h' (by decide)
        · exact digit_ne_dot (hf '.' h') rfl
    rw [if_neg (fun hh => hnd hh.2),
      if_pos (List.mem_append.mpr (Or.inr (List.mem_cons_self _ _))),
      replaceFirst_append_of_not_mem hnca]
    exact jsNumberL_digits_dot ha hf hne
  · -- concrete: "1.234,56"
    have h2 : normalizeSeps (cleanPrice "1.234,56".data)
        = ['1', '2', '3', '4'] ++ '.' :: ['5', '6'] := by decide
    show jsNumberL (normalizeSeps (cleanPrice "1.234,56".data)) = _
    rw [h2, jsNumberL_digits_dot (by decide) (by decide) (by decide)]
    have hi : digitsVal ['1', '2', '3', '4'] = 1234 := rfl
    have hf : digitsVal ['5', '6'] = 56 := rfl
    rw [hi, hf]
    norm_num
  · -- concrete: "1,234.56"
    have h2 : normalizeSeps (cleanPrice "1,234.56".data)
        = ['1', '2', '3', '4'] ++ '.' :: ['5', '6'] := by decide
    show jsNumberL (normalizeSeps (cleanPrice "1,234.56".data)) = _
    rw [h2, jsNumberL_digits_dot (by decide) (by decide) (by decide)]
    have hi : digitsVal ['1', '2', '3', '4'] = 1234 := rfl
    have hf : digitsVal ['5', '6'] = 56 := rfl
    rw [hi, hf]
    norm_num

/-- Witness for C1: the first conjunct applied to the characters of
`"1.234,56"` (periods as thousands marks, final comma as decimal point). -/
theorem parseNumberLocalized_last_separator_spec_witness :
    parseNumberLocalizedL (['1', '.', '2', '3', '4'] ++ ',' :: ['5', '6'])
      = some ((digitsVal (['1', '.', '2', '3', '4'].filter (· ≠ '.')) : Rat)
        + (digitsVal ['5', '6'] : Rat) / (10 : Rat) ^ (['5', '6'] : List Char).length) :=
  parseNumberLocalized_last_separator_spec.1 ['1', '.', '2', '3', '4'] ['5', '6']
    (by decide) (by decide) (by decide) (by decide)

/-- **C10**: an input whose cleaned form contains two or more commas and no
period parses to `null`: the single-comma replacement rewrites only the
first comma, the surviving comma makes `Number()` return `NaN`; in
particular `parseNumberLocalized("1,234,567") = null`. -/
theorem parseNumberLocalized_multi_comma :
    (∀ s : String, '.' ∉ cleanPrice s.data → 2 ≤ (cleanPrice s.data).count ',' →
        parseNumberLocalized s = none) ∧
    parseNumberLocalized "1,234,567" = none := by
  constructor
  · intro s hdot hcount
    have hc : ',' ∈ cleanPrice s.data := by
      have : 0 < (cleanPrice s.data).count ',' := by omega
      exact List.count_pos_iff.mp this
    show jsNumberL (normalizeSeps (cleanPrice s.data)) = none
    rw [normalizeSeps, if_neg (fun hh => hdot hh.2), if_pos hc]
    exact jsNumberL_none_of_comma (mem_replaceFirst_of_two_le_count hcount)
  · decide

/-- Witness for C10: the general statement applied to `"1,234,567"`. -/
theorem parseNumberLocalized_multi_comma_witness :
    parseNumberLocalized "1,234,567" = none :=
  parseNumberLocalized_multi_comma.1 "1,234,567" (by decide) (by decide)

/-- **C2**: `computeDiscount(priceNew, priceOld)` is `null` unless both
inputs are numbers with `priceOld > 0` and `priceNew < priceOld`, in which
case it is `((priceOld - priceNew) / priceOld) * 100` rounded (half-up) to
one decimal place; with the three concrete cases of the spec. -/
theorem computeDiscount_spec :
    (∀ o, computeDiscount none o = none) ∧
    (∀ n, computeDiscount n none = none) ∧
    (∀ n o : Rat, o ≤ 0 ∨ o ≤ n → computeDiscount (some n) (some o) = none) ∧
    (∀ n o : Rat, 0 < o → n < o →
        computeDiscount (some n) (some o) = some (jsRound1 (((o - n) / o) * 100))) ∧
    computeDiscount (some 80) (some 100) = some 20 ∧
    computeDiscount (some 100) (some 80) = none ∧
    computeDiscount (some 50) (some 50) = none := by
  refine ⟨fun o => rfl, fun n => ?_, ?_, ?_, ?_, ?_, ?_⟩
  · cases n <;> rfl
  · intro n o h
    show (if o ≤ 0 ∨ n ≥ o then none else some (jsRound1 (((o - n) / o) * 100))) = none
    exact if_pos h
  · intro n o h1 h2
    show (if o ≤ 0 ∨ n ≥ o then none else some (jsRound1 (((o - n) / o) * 100)))
      = some (jsRound1 (((o - n) / o) * 100))
    rw [if_neg]
    rintro (h | h) <;> linarith
  · show (if (100 : Rat) ≤ 0 ∨ (80 : Rat) ≥ 100 then none
        else some (jsRound1 ((((100 : Rat) - 80) / 100) * 100))) = some 20
    rw [if_neg (by norm_num)]
    norm_num [jsRound1, jsRound]
  · show (if (80 : Rat) ≤ 0 ∨ (100 : Rat) ≥ 80 then none
        else some (jsRound1 ((((80 : Rat) - 100) / 80) * 100))) = none
    rw [if_pos (Or.inr (by norm_num))]
  · show (if (50 : Rat) ≤ 0 ∨ (50 : Rat) ≥ 50 then none
        else some (jsRound1 ((((50 : Rat) - 50) / 50) * 100))) = none
    rw [if_pos (Or.inr le_rfl)]

/-- Witness for C2: the guarded conjuncts applied at `(80, 100)`,
`(100, 80)` and `(50, 50)`. -/
theorem computeDiscount_spec_witness :
    computeDiscount (some 80) (some 100) = some (jsRound1 (((100 - 80) / 100) * 100))
    ∧ computeDiscount (some 100) (some 80) = none
    ∧ computeDiscount (some 50) (some 50) = none :=
  ⟨computeDiscount_spec.2.2.2.1 80 100 (by norm_num) (by norm_num),
   computeDiscount_spec.2.2.1 100 80 (Or.inr (by norm_num)),
   computeDiscount_spec.2.2.1 50 50 (Or.inr le_rfl)⟩

/-! ## Lemmas about dedupe -/

lemma dedupeAux_congr_seen {l : List Item} :
    ∀ {s1 s2 : List String}, (∀ k, k ∈ s1 ↔ k ∈ s2) →
      dedupeAux s1 l = dedupeAux s2 l := by
  induction l with
  | nil => intro s1 s2 _; rfl
  | cons x rest ih =>
    intro s1 s2 h
    rw [dedupeAux, dedupeAux]
    by_cases hx : dedupeKey x ∈ s1
    · rw [if_pos hx, if_pos ((h _).mp hx)]
      exact ih h
    · rw [if_neg hx, if_neg (fun hm => hx ((h _).mpr hm))]
      congr 1
      apply ih
      intro k
      simp only [List.mem_cons]
      exact or_congr Iff.rfl (h k)

lemma dedupeAux_cons_seen {k : String} {l : List Item} :
    ∀ {seen : List String},
      dedupeAux (k :: seen) l = dedupeAux seen (l.filter (fun x => dedupeKey x != k)) := by
  induction l with
  | nil => intro seen; rfl
  | cons x rest ih =>
    intro seen
    by_cases hxk : dedupeKey x = k
    · rw [dedupeAux, if_pos (by rw [hxk]; exact List.mem_cons_self _ _),
        List.filter_cons_of_neg (by simp [hxk])]
      exact ih
    · rw [List.filter_cons_of_pos (by simp [hxk]), dedupeAux]
      by_cases hxs : dedupeKey x ∈ seen
      · rw [if_pos (List.mem_cons_of_mem _ hxs), dedupeAux, if_pos hxs]
        exact ih
      · rw [if_neg (by
          intro hm
          rcases List.mem_cons.mp hm with h | h
          · exact hxk h
          · exact hxs h), dedupeAux, if_neg hxs]
        congr 1
        rw [@dedupeAux_congr_seen rest (dedupeKey x :: k :: seen)
          (k :: dedupeKey x :: seen) (by
          intro k'
          simp only [List.mem_cons]
          tauto)]
        exact ih

lemma dedupe_eq_keepFirstByKey_aux :
    ∀ (n : Nat) (l : List Item), l.length ≤ n → dedupe l = keepFirstByKey l := by
  intro n
  induction n with
  | zero =>
    intro l hl
    rw [List.length_eq_zero.mp (Nat.le_zero.mp hl), keepFirstByKey]
    rfl
  | succ n ih =>
    intro l hl
    cases l with
    | nil => rw [keepFirstByKey]; rfl
    | cons x rest =>
      show dedupeAux [] (x :: rest) = _
      rw [dedupeAux, if_neg (List.not_mem_nil _), keepFirstByKey]
      congr 1
      rw [dedupeAux_cons_seen]
      exact ih _ (le_trans (rest.length_filter_le _)
        (Nat.le_of_succ_le_succ hl))

lemma dedupeAux_key_not_mem_seen {l : List Item} :
    ∀ {seen : List String} {it : Item}, it ∈ dedupeAux seen l → dedupeKey it ∉ seen := by
  induction l with
  | nil => intro seen it h; cases h
  | cons x rest ih =>
    intro seen it h
    rw [dedupeAux] at h
    by_cases hx : dedupeKey x ∈ seen
    · rw [if_pos hx] at h
      exact ih h
    · rw [if_neg hx] at h
      rcases List.mem_cons.mp h with rfl | h'
      · exact hx
      · intro hm
        exact ih h' (List.mem_cons_of_mem _ hm)

lemma dedupeAux_pairwise (l : List Item) :
    ∀ seen : List String,
      (dedupeAux seen l).Pairwise (fun a b => dedupeKey a ≠ dedupeKey b) := by
  induction l with
  | nil => intro seen; exact List.Pairwise.nil
  | cons x rest ih =>
    intro seen
    rw [dedupeAux]
    by_cases hx : dedupeKey x ∈ seen
    · rw [if_pos hx]
      exact ih seen
    · rw [if_neg hx]
      refine List.Pairwise.cons ?_ (ih _)
      intro b hb hkey
      exact dedupeAux_key_not_mem_seen hb (by rw [← hkey]; exact List.mem_cons_self _ _)

lemma dedupeAux_eq_self {l : List Item} :
    ∀ {seen : List String}, (∀ it ∈ l, dedupeKey it ∉ seen) →
      l.Pairwise (fun a b => dedupeKey a ≠ dedupeKey b) →
      dedupeAux seen l = l := by
  induction l with
  | nil => intro seen _ _; rfl
  | cons x rest ih =>
    intro seen h1 h2
    rw [dedupeAux, if_neg (h1 x (List.mem_cons_self _ _))]
    congr 1
    rcases List.pairwise_cons.mp h2 with ⟨hx, hrest⟩
    apply ih _ hrest
    intro it hit hm
    rcases List.mem_cons.mp hm with h | h
    · exact hx it hit h.symm
    · exact h1 it (List.mem_cons_of_mem _ hit) h

/-! ## Claim theorems: dedupe (C3, C8) -/

/-- **C3** (amended): `dedupe` keeps exactly the first occurrence of each
identity key and drops every later record whose key matches a kept record's
key, where the key joins `name` (lower-cased) with `url`, `price_new` and
`currency` taken verbatim — i.e. only the name is compared
case-insensitively.  In particular, of two records identical on the key
and differing only in `source`, exactly the first survives. -/
theorem dedupe_first_occurrence_spec :
    (∀ items : List Item, dedupe items = keepFirstByKey items) ∧
    (∀ (r : Item) (s : String), dedupe [r, { r with source := s }] = [r]) := by
  constructor
  · intro items
    exact dedupe_eq_keepFirstByKey_aux items.length items le_rfl
  · intro r s
    have hk : dedupeKey { r with source := s } = dedupeKey r := rfl
    show dedupeAux [] [r, { r with source := s }] = [r]
    rw [dedupeAux, if_neg (List.not_mem_nil _), dedupeAux,
      if_pos (by rw [hk]; exact List.mem_cons_self _ _)]
    rfl

/-- A first record for the C3 counterexample: identical to the second on
the spec's case-insensitive tuple, but with an upper-case path letter in
the URL. -/
def c3RecUpper : Item :=
  { source := "ldjson", name := "Cream", brand := none, price_new := none,
    price_old := none, discount_pct := none, currency := some "EUR",
    availability := none, url := "https://shop.example.de/P/1", image := none,
    store := "shop.example.de", country := "DE" }

/-- The second record of the C3 counterexample: same case-insensitive
tuple, lower-case URL. -/
def c3RecLower : Item :=
  { c3RecUpper with source := "og", url := "https://shop.example.de/p/1" }

/-- Counterexample to **C3** as stated: these two distinct records agree on
the case-insensitive tuple (name, url, priceCurrent, currency), yet
`dedupe` keeps both — the source lower-cases only the name, so URLs
differing in case are distinct keys. -/
theorem dedupe_ci_tuple_counterexample :
    specCiTuple c3RecUpper = specCiTuple c3RecLower ∧
    c3RecUpper ≠ c3RecLower ∧
    dedupe [c3RecUpper, c3RecLower] = [c3RecUpper, c3RecLower] := by
  refine ⟨by decide, by decide, ?_⟩
  show dedupeAux [] [c3RecUpper, c3RecLower] = _
  rw [dedupeAux, if_neg (List.not_mem_nil _), dedupeAux, if_neg (by decide)]
  rfl

/-- **C8**: `dedupe` is idempotent — its output is a fixed point. -/
theorem dedupe_idempotent (items : List Item) :
    dedupe (dedupe items) = dedupe items :=
  dedupeAux_eq_self (fun _ _ hm => (List.not_mem_nil _ hm))
    (dedupeAux_pairwise items [])

/-! ## Evaluation lemmas for digit-only price texts -/

lemma takeWhile_eq_self_of_all {p : Char → Bool} {l : List Char}
    (h : ∀ c ∈ l, p c) : l.takeWhile p = l := by
  induction l with
  | nil => rfl
  | cons x xs ih =>
    rw [List.takeWhile_cons, if_pos (h x (List.mem_cons_self _ _)),
      ih (fun c hc => h c (List.mem_cons_of_mem _ hc))]

lemma dropWhile_eq_nil_of_all {p : Char → Bool} {l : List Char}
    (h : ∀ c ∈ l, p c) : l.dropWhile p = [] := by
  induction l with
  | nil => rfl
  | cons x xs ih =>
    rw [List.dropWhile_cons, if_pos (h x (List.mem_cons_self _ _)),
      ih (fun c hc => h c (List.mem_cons_of_mem _ hc))]

lemma jsNumBody_all_digits {l : List Char} (hd : ∀ c ∈ l, c.isDigit)
    (hne : l ≠ []) : jsNumBody l = some ((digitsVal l : Rat)) := by
  have hp : ∀ c ∈ l, (fun c => decide (c ≠ '.')) c := fun c hc => by
    simpa using digit_ne_dot (hd c hc)
  rw [jsNumBody, if_neg hne, takeWhile_eq_self_of_all hp, dropWhile_eq_nil_of_all hp]
  show (if l.all Char.isDigit = true then some ((digitsVal l : Rat)) else none) = _
  rw [if_pos (List.all_eq_true.mpr hd)]

lemma jsNumberL_all_digits {l : List Char} (hd : ∀ c ∈ l, c.isDigit)
    (hne : l ≠ []) : jsNumberL l = some ((digitsVal l : Rat)) := by
  rw [jsNumberL, if_neg hne]
  show Option.map (fun q => (jsSignSplit l).1 * q) (jsNumBody (jsSignSplit l).2) = _
  have hsign : jsSignSplit l = (1, l) := by
    cases l with
    | nil => cases hne rfl
    | cons x xs =>
      have hx := hd x (List.mem_cons_self _ _)
      show (if x = '-' then ((-1 : Rat), xs)
        else if x = '+' then ((1 : Rat), xs)
        else ((1 : Rat), x :: xs)) = _
      rw [if_neg (digit_ne_dash hx), if_neg (digit_ne_plus hx)]
  rw [hsign, jsNumBody_all_digits hd hne, Option.map_some', one_mul]

lemma getNum_zero : getNum "0" = some 0 := by
  rw [getNum, if_neg (by decide)]
  show jsNumberL (normalizeSeps (cleanPrice "0".data)) = _
  rw [show normalizeSeps (cleanPrice "0".data) = ['0'] from by decide,
    jsNumberL_all_digits (by decide) (by decide),
    show digitsVal ['0'] = 0 from rfl]
  norm_num

lemma getNum_fifteen : getNum "15" = some 15 := by
  rw [getNum, if_neg (by decide)]
  show jsNumberL (normalizeSeps (cleanPrice "15".data)) = _
  rw [show normalizeSeps (cleanPrice "15".data) = ['1', '5'] from by decide,
    jsNumberL_all_digits (by decide) (by decide),
    show digitsVal ['1', '5'] = 15 from rfl]
  norm_num

/-! ## Claim theorems: DOM fallback gating (C5) and old-price back-fill (C6) -/

/-- **C5**: `scrapeDetail` runs the DOM fallback iff the structured/meta
extraction produced no record with a non-null `price_new`; when some
structured record is priced, the output is the deduplicated structured
list alone — the DOM fallback contributes nothing. -/
theorem scrapeDetail_dom_fallback_condition :
    (∀ (structured : List Item) (dom : List DomItem) (host country : String),
        (∃ it ∈ structured, it.price_new ≠ none) →
        scrapeDetailItems structured dom host country = dedupe structured) ∧
    (∀ (structured : List Item) (dom : List DomItem) (host country : String),
        (∀ it ∈ structured, it.price_new = none) →
        scrapeDetailItems structured dom host country =
          dedupe (structured ++ dom.map (convertDomItem host country))) := by
  constructor
  · rintro s dom h c ⟨it, hit, hp⟩
    have hany : s.any (fun it => it.price_new.isSome) = true :=
      List.any_eq_true.mpr ⟨it, hit, by
        cases hpn : it.price_new with
        | none => exact absurd hpn hp
        | some v => rfl⟩
    simp [scrapeDetailItems, hany]
  · intro s dom h c hall
    have hany : s.any (fun it => it.price_new.isSome) = false := by
      rw [List.any_eq_false]
      intro it hit
      rw [hall it hit]
      simp
    simp [scrapeDetailItems, hany]

/-- A priced structured record for the C5 witness. -/
def c5Priced : Item :=
  { source := "ldjson", name := "A", brand := none, price_new := some 5,
    price_old := none, discount_pct := none, currency := none,
    availability := none, url := "u", image := none, store := "s", country := "DE" }

/-- A DOM fallback candidate for the C5 witness. -/
def c5Dom : DomItem :=
  { source := "dom-visible", name := "B", brand := none, price_new := some 7,
    price_old := none, discount_pct := none, currency := none,
    availability := none, url := "u2", image := "" }

/-- Witness for C5: with a priced structured record the DOM output is
ignored; with no priced structured record it is appended. -/
theorem scrapeDetail_dom_fallback_condition_witness :
    scrapeDetailItems [c5Priced] [c5Dom] "s" "DE" = dedupe [c5Priced] ∧
    scrapeDetailItems [] [c5Dom] "s" "DE"
      = dedupe ([] ++ [c5Dom].map (convertDomItem "s" "DE")) :=
  ⟨scrapeDetail_dom_fallback_condition.1 [c5Priced] [c5Dom] "s" "DE"
      ⟨c5Priced, List.mem_cons_self _ _, by simp [c5Priced]⟩,
   scrapeDetail_dom_fallback_condition.2 [] [c5Dom] "s" "DE" (by simp)⟩

lemma findOldPrice_skip_append {pre : List String} {t : String} {o : Rat}
    (hpre : ∀ s ∈ pre, getNum s = none) (ht : getNum t = some o)
    (post : List String) :
    findOldPriceFromTexts (pre ++ t :: post) = some o := by
  induction pre with
  | nil => simp only [List.nil_append, findOldPriceFromTexts, ht]
  | cons x xs ih =>
    rw [List.cons_append]
    simp only [findOldPriceFromTexts, hpre x (List.mem_cons_self _ _)]
    exact ih (fun s hs => hpre s (List.mem_cons_of_mem _ hs))

lemma findOldPrice_none {texts : List String}
    (h : ∀ s ∈ texts, getNum s = none) :
    findOldPriceFromTexts texts = none := by
  induction texts with
  | nil => rfl
  | cons x xs ih =>
    simp only [findOldPriceFromTexts, h x (List.mem_cons_self _ _)]
    exact ih (fun s hs => h s (List.mem_cons_of_mem _ hs))

/-- **C6** (amended): the first *numeric* value among the strike-through
texts — of any sign, with no greater-than-zero filter — is the page-wide
previous price; it is back-filled onto every candidate that lacks its own
`price_old` and whose `price_new` is non-null and strictly below it, and
`discount_pct` is recomputed inline at that point; candidates failing any
of these conditions, and pages whose strike texts are all non-numeric, are
left unchanged. -/
theorem dom_oldprice_backfill_spec :
    (∀ (pre : List String) (t : String) (post : List String)
        (out : List DomItem) (o : Rat),
        (∀ s ∈ pre, getNum s = none) → getNum t = some o →
        domOldPriceStep (pre ++ t :: post) out = out.map (applyOldPrice o)) ∧
    (∀ (texts : List String) (out : List DomItem),
        (∀ s ∈ texts, getNum s = none) → domOldPriceStep texts out = out) ∧
    (∀ (o : Rat) (it : DomItem) (n : Rat),
        it.price_old = none → it.price_new = some n → n < o →
        applyOldPrice o it =
          { it with price_old := some o,
                    discount_pct := some (jsRound1 (((o - n) / o) * 100)) }) ∧
    (∀ (o : Rat) (it : DomItem) (n : Rat),
        it.price_old = none → it.price_new = some n → o ≤ n →
        applyOldPrice o it = it) ∧
    (∀ (o : Rat) (it : DomItem), it.price_new = none → applyOldPrice o it = it) ∧
    (∀ (o : Rat) (it : DomItem), it.price_old ≠ none → applyOldPrice o it = it) := by
  refine ⟨?_, ?_, ?_, ?_, ?_, ?_⟩
  · intro pre t post out o hpre ht
    rw [domOldPriceStep, findOldPrice_skip_append hpre ht]
  · intro texts out h
    rw [domOldPriceStep, findOldPrice_none h]
  · intro o it n h1 h2 h3
    simp only [applyOldPrice, h1, h2]
    rw [if_pos h3]
  · intro o it n h1 h2 h3
    simp only [applyOldPrice, h1, h2]
    rw [if_neg (by exact fun hh => absurd hh (not_lt.mpr h3))]
  · intro o it h
    cases hpo : it.price_old <;> simp only [applyOldPrice, h, hpo]
  · intro o it h
    cases hpo : it.price_old with
    | none => exact absurd hpo h
    | some v => simp only [applyOldPrice, hpo]

/-- Witness for C6 (amended): the back-fill equation applied with the
single numeric strike text `"15"`, and the per-candidate update applied to
a candidate priced strictly below the old price. -/
theorem dom_oldprice_backfill_spec_witness :
    domOldPriceStep ([] ++ "15" :: []) [c5Dom] = [c5Dom].map (applyOldPrice 15)
    ∧ applyOldPrice 15 c5Dom =
        { c5Dom with price_old := some 15,
                     discount_pct := some (jsRound1 (((15 - 7) / 15) * 100)) } :=
  ⟨dom_oldprice_backfill_spec.1 [] "15" [] [c5Dom] 15
      (by simp) getNum_fifteen,
   dom_oldprice_backfill_spec.2.2.1 15 c5Dom 7 rfl rfl (by norm_num)⟩

/-- The DOM candidate of the C6 counterexample: current price `12`, no
previous price of its own. -/
def c6Item : DomItem :=
  { source := "dom-visible", name := "X", brand := none, price_new := some 12,
    price_old := none, discount_pct := none, currency := some "GBP",
    availability := none, url := "u", image := "" }

/-- Counterexample to **C6** as stated: among the strike texts
`["0", "15"]` the first numeric value *greater than zero* is `15`, which
exceeds the candidate's current price `12`, and the candidate lacks its own
previous price — yet the code back-fills nothing, because `findOldPrice`
stops at the first numeric value `0` (it has no positivity filter) and `0`
is not above the current price. -/
theorem dom_oldprice_positive_counterexample :
    specFirstPositiveFromTexts ["0", "15"] = some 15 ∧
    (12 : Rat) < 15 ∧
    c6Item.price_new = some 12 ∧
    c6Item.price_old = none ∧
    domOldPriceStep ["0", "15"] [c6Item] = [c6Item] := by
  refine ⟨?_, by norm_num, rfl, rfl, ?_⟩
  · simp only [specFirstPositiveFromTexts, getNum_zero, getNum_fifteen]
    rw [if_neg (by norm_num), if_pos (by norm_num)]
  · rw [domOldPriceStep,
      show findOldPriceFromTexts ["0", "15"] = some 0 from by
        simp only [findOldPriceFromTexts, getNum_zero]]
    show [applyOldPrice 0 c6Item] = [c6Item]
    have hunch : applyOldPrice 0 c6Item = c6Item := by
      simp only [applyOldPrice, c6Item]
      rw [if_neg (by norm_num)]
    rw [hunch]

/-! ## The price_old > price_new invariant (C7) -/

/-- The record invariant of claim C7: `price_old` is populated only
together with a strictly smaller `price_new`. -/
def itemPriceOldInv (it : Item) : Prop :=
  ∀ o, it.price_old = some o → ∃ n, it.price_new = some n ∧ n < o

/-- The same invariant for DOM fallback candidates. -/
def domPriceOldInv (d : DomItem) : Prop :=
  ∀ o, d.price_old = some o → ∃ n, d.price_new = some n ∧ n < o

lemma dedupeAux_subset {l : List Item} :
    ∀ {seen : List String} {it : Item}, it ∈ dedupeAux seen l → it ∈ l := by
  induction l with
  | nil => intro _ _ h; cases h
  | cons x rest ih =>
    intro seen it h
    rw [dedupeAux] at h
    by_cases hx : dedupeKey x ∈ seen
    · rw [if_pos hx] at h
      exact List.mem_cons_of_mem _ (ih h)
    · rw [if_neg hx] at h
      rcases List.mem_cons.mp h with rfl | h'
      · exact List.mem_cons_self _ _
      · exact List.mem_cons_of_mem _ (ih h')

lemma ldOfferItem_inv (g ofr : Json) (b h c : String) :
    itemPriceOldInv (ldOfferItem g ofr b h c) := by
  intro o' hpo
  have hpo' : (match ldPNew ofr, ldPOld ofr with
      | some n, some o => if o > n then some o else none
      | _, _ => none) = some o' := hpo
  cases hn : ldPNew ofr with
  | none =>
    cases ho : ldPOld ofr <;> simp only [hn, ho] at hpo' <;> cases hpo'
  | some n =>
    cases ho : ldPOld ofr with
    | none => simp only [hn, ho] at hpo'; cases hpo'
    | some o2 =>
      simp only [hn, ho] at hpo'
      by_cases hgt : o2 > n
      · rw [if_pos hgt] at hpo'
        cases hpo'
        exact ⟨n, by show ldPNew ofr = some n; exact hn, hgt⟩
      · rw [if_neg hgt] at hpo'
        cases hpo'

lemma ldItemsOfGraphNode_inv (g : Json) (b h c : String) :
    ∀ it ∈ ldItemsOfGraphNode g b h c, itemPriceOldInv it := by
  intro it hit
  rw [ldItemsOfGraphNode] at hit
  by_cases hp : ldIsProduct g
  · rw [if_pos hp] at hit
    cases hofr : ldOffers g with
    | nil =>
      rw [hofr] at hit
      rcases List.mem_singleton.mp hit with rfl
      intro o' hpo
      cases hpo
    | cons o1 os =>
      rw [hofr] at hit
      rcases List.mem_map.mp hit with ⟨ofr, _, rfl⟩
      exact ldOfferItem_inv g ofr b h c
  · rw [if_neg hp] at hit
    cases hit

lemma ldItemsOfJson_inv (obj : Json) (b h c : String) :
    ∀ it ∈ ldItemsOfJson obj b h c, itemPriceOldInv it := by
  intro it hit
  have hit' : it ∈ (match obj with | Json.arr xs => xs.toList | _ => [obj]).flatMap
      (fun node => (ldGraphs node).flatMap
        (fun g => ldItemsOfGraphNode g b h c)) := hit
  rcases List.mem_flatMap.mp hit' with ⟨node, -, hnode⟩
  rcases List.mem_flatMap.mp hnode with ⟨g, -, hg⟩
  exact ldItemsOfGraphNode_inv g b h c it hg

lemma convertDomItem_inv {host country : String} {d : DomItem}
    (h : domPriceOldInv d) : itemPriceOldInv (convertDomItem host country d) := by
  intro o' hpo
  rcases h o' hpo with ⟨n, hn, hlt⟩
  exact ⟨n, hn, hlt⟩

lemma applyOldPrice_inv {op : Rat} {d : DomItem} (h : domPriceOldInv d) :
    domPriceOldInv (applyOldPrice op d) := by
  cases hpold : d.price_old with
  | some v =>
    have hunch : applyOldPrice op d = d := by
      cases hpn : d.price_new <;> simp only [applyOldPrice, hpold, hpn]
    rw [hunch]
    exact h
  | none =>
    cases hpn : d.price_new with
    | none =>
      have hunch : applyOldPrice op d = d := by
        simp only [applyOldPrice, hpold, hpn]
      rw [hunch]
      exact h
    | some n =>
      by_cases hgt : op > n
      · have hupd : applyOldPrice op d =
            { d with price_old := some op,
                     discount_pct := some (jsRound1 (((op - n) / op) * 100)) } := by
          simp only [applyOldPrice, hpold, hpn]
          rw [if_pos hgt]
        rw [hupd]
        intro o' hpo'
        have hoo : some op = some o' := hpo'
        cases hoo
        exact ⟨n, hpn, hgt⟩
      · have hunch : applyOldPrice op d = d := by
          simp only [applyOldPrice, hpold, hpn]
          rw [if_neg hgt]
        rw [hunch]
        exact h

/-! ## Claim theorems: the price_old invariant (C7) and
malformed-JSON skipping (C9) -/

/-- **C7**: every record emitted by the structured-data extractor, pushed
by the meta-tag extractor, produced by the DOM old-price back-fill from
invariant-satisfying candidates, assembled by `scrapeDetail`, or surviving
the orchestrator tail, satisfies: `price_old` is non-null only when
`price_new` is non-null and strictly smaller; and an ld+json offer whose
old-price candidate is less than or equal to the current price collapses
`price_old` to null. -/
theorem price_old_invariant :
    (∀ (blocks : List String) (baseUrl host country : String),
        ∀ it ∈ ldItemsOfBlocks blocks baseUrl host country, itemPriceOldInv it) ∧
    (∀ (g ofr : Json) (baseUrl host country : String) (n o : Rat),
        ldPNew ofr = some n → ldPOld ofr = some o → o ≤ n →
        (ldOfferItem g ofr baseUrl host country).price_old = none) ∧
    (∀ (amt : String) (currTag title img : Option String) (b h c : String),
        ∀ it ∈ ogItems (some amt) currTag title img b h c, it.price_old = none) ∧
    (∀ (op : Rat) (out : List DomItem), (∀ d ∈ out, domPriceOldInv d) →
        ∀ d ∈ out.map (applyOldPrice op), domPriceOldInv d) ∧
    (∀ (structured : List Item) (dom : List DomItem) (host country : String),
        (∀ it ∈ structured, itemPriceOldInv it) →
        (∀ d ∈ dom, domPriceOldInv d) →
        ∀ it ∈ scrapeDetailItems structured dom host country, itemPriceOldInv it) ∧
    (∀ (fb : Option String) (items : List Item),
        (∀ it ∈ items, itemPriceOldInv it) →
        ∀ it ∈ finalizeItems fb items, itemPriceOldInv it) := by
  refine ⟨?_, ?_, ?_, ?_, ?_, ?_⟩
  · intro blocks baseUrl host country it hit
    rw [ldItemsOfBlocks] at hit
    rcases List.mem_flatMap.mp hit with ⟨s, -, hs⟩
    cases hp : safeJsonParse s with
    | none => rw [hp] at hs; cases hs
    | some obj =>
      rw [hp] at hs
      exact ldItemsOfJson_inv obj baseUrl host country it hs
  · intro g ofr baseUrl host country n o hn ho hle
    have hshape : (ldOfferItem g ofr baseUrl host country).price_old =
        (match ldPNew ofr, ldPOld ofr with
          | some n, some o => if o > n then some o else none
          | _, _ => none) := rfl
    rw [hshape]
    simp only [hn, ho]
    rw [if_neg (not_lt.mpr hle)]
  · intro amt currTag title img b h c it hit
    rcases List.mem_singleton.mp hit with rfl
    rfl
  · intro op out h d hd
    rcases List.mem_map.mp hd with ⟨d0, hd0, rfl⟩
    exact applyOldPrice_inv (h d0 hd0)
  · intro structured dom host country hs hd it hit
    rw [scrapeDetailItems] at hit
    have hit' := dedupeAux_subset hit
    rcases Bool.eq_false_or_eq_true (structured.any fun it => it.price_new.isSome)
      with hany | hany
    · rw [hany] at hit'
      have hit2 : it ∈ structured := by simpa using hit'
      exact hs it hit2
    · rw [hany] at hit'
      have hit2 : it ∈ structured ++ List.map (convertDomItem host country) dom := by
        simpa using hit'
      rcases List.mem_append.mp hit2 with h' | h'
      · exact hs it h'
      · rcases List.mem_map.mp h' with ⟨d0, hd0, rfl⟩
        exact convertDomItem_inv (hd d0 hd0)
  · intro fb items hinv it hit
    rw [finalizeItems] at hit
    have h1 := List.take_subset _ _ hit
    rcases List.mem_map.mp h1 with ⟨it1, hit1, rfl⟩
    have h2 := List.mem_of_mem_filter hit1
    have h3 := dedupeAux_subset h2
    rw [currencyFallbackFill] at h3
    rcases List.mem_map.mp h3 with ⟨it0, hit0, rfl⟩
    intro o hpo
    rcases hinv it0 hit0 o hpo with ⟨n, hn, hlt⟩
    exact ⟨n, hn, hlt⟩

/-- Witness for C7: the back-fill conjunct applied with old price `15` to
the single candidate `c6Item` (whose `price_old` is null, so the candidate
invariant holds vacuously), giving the invariant of the updated record. -/
theorem price_old_invariant_witness :
    domPriceOldInv (applyOldPrice 15 c6Item) :=
  price_old_invariant.2.2.2.1 15 [c6Item]
    (fun d hd => by
      rcases List.mem_singleton.mp hd with rfl
      exact fun o' h => nomatch h)
    (applyOldPrice 15 c6Item) (List.mem_map.mpr ⟨c6Item, List.mem_cons_self _ _, rfl⟩)

/-- A well-formed product block for the C9 concrete case (no list price,
so no price comparison is involved). -/
def goodLdBlock : String :=
  "\x7b\"@type\":\"Product\",\"name\":\"Moisture Cream\",\"offers\":\x7b\"price\":30,\"priceCurrency\":\"EUR\"\x7d\x7d"

lemma ldItemsOfBlocks_cons (x : String) (xs : List String) (b h c : String) :
    ldItemsOfBlocks (x :: xs) b h c =
      (match safeJsonParse x with
        | none => []
        | some obj => ldItemsOfJson obj b h c) ++ ldItemsOfBlocks xs b h c := by
  show (x :: xs).flatMap _ = _
  rw [List.flatMap_cons]
  rfl

/-- **C9**: the structured-data extractor is total and skips malformed
blocks: its output only depends on the blocks that parse (first conjunct),
a page none of whose blocks parse yields the empty list (second conjunct),
a truncated JSON body parses to `null` rather than raising (third
conjunct), and a malformed block does not prevent the following block from
contributing its product (fourth conjunct). -/
theorem ldjson_malformed_skipped :
    (∀ (blocks : List String) (baseUrl host country : String),
        ldItemsOfBlocks blocks baseUrl host country =
          ldItemsOfBlocks (blocks.filter (fun s => (safeJsonParse s).isSome))
            baseUrl host country) ∧
    (∀ (blocks : List String) (baseUrl host country : String),
        (∀ s ∈ blocks, safeJsonParse s = none) →
        ldItemsOfBlocks blocks baseUrl host country = []) ∧
    safeJsonParse "\x7b\"name\": " = none ∧
    (ldItemsOfBlocks ["\x7b\"name\": ", goodLdBlock] "u" "h" "DE").map Item.name
      = ["Moisture Cream"] := by
  have hbad : safeJsonParse "\x7b\"name\": " = none := by
    cases hp : safeJsonParse "\x7b\"name\": " with
    | none => rfl
    | some v =>
      have hfalse : (safeJsonParse "\x7b\"name\": ").isSome = false := by decide
      rw [hp] at hfalse
      simp at hfalse
  refine ⟨?_, ?_, hbad, by decide⟩
  · intro blocks baseUrl host country
    induction blocks with
    | nil => rfl
    | cons x xs ih =>
      cases hp : safeJsonParse x with
      | none =>
        rw [ldItemsOfBlocks_cons, hp, List.filter_cons_of_neg (by simp [hp])]
        simpa using ih
      | some obj =>
        rw [ldItemsOfBlocks_cons, hp, List.filter_cons_of_pos (by simp [hp]),
          ldItemsOfBlocks_cons, hp, ih]
  · intro blocks baseUrl host country h
    induction blocks with
    | nil => rfl
    | cons x xs ih =>
      rw [ldItemsOfBlocks_cons, h x (List.mem_cons_self _ _)]
      simpa using ih (fun s hs => h s (List.mem_cons_of_mem _ hs))

/-- **C4**: country resolution applies, in priority order, the explicit
host-to-country override table, then the path-segment locale hints, then
the top-level-domain map (the source's `guessCountryFromHost`), then
`"UNK"`; in particular `shop.example.de` resolves to `"DE"`, a host with an
override entry resolves to the override value rather than `"UNK"`, and an
unrecognized TLD resolves to `"UNK"`.  The override table and path hints are
modelled from the spec (they are absent from the source files under
verification); the TLD map and the `|| 'UNK'` fallback are the source's. -/
theorem resolveCountry_priority_spec :
    (∀ (ov : List (String × String)) (host path c : String),
        ov.lookup host = some c → resolveCountry ov host path = c) ∧
    (∀ (ov : List (String × String)) (host path c : String),
        ov.lookup host = none → pathHintCountry path = some c →
        resolveCountry ov host path = c) ∧
    (∀ (ov : List (String × String)) (host path : String),
        ov.lookup host = none → pathHintCountry path = none →
        resolveCountry ov host path =
          (match guessCountryFromHost host with | some c => c | none => "UNK")) ∧
    guessCountryFromHost "shop.example.de" = some "DE" ∧
    resolveCountry [] "shop.example.de" "" = "DE" ∧
    resolveCountry [("shop.example.com", "TR")] "shop.example.com" "" = "TR" ∧
    resolveCountry [] "shop.example.xyz" "" = "UNK" := by
  refine ⟨?_, ?_, ?_, by decide, by decide, by decide, by decide⟩
  · intro ov host path c h
    rw [resolveCountry, h]
  · intro ov host path c h1 h2
    rw [resolveCountry, h1, h2]
  · intro ov host path h1 h2
    rw [resolveCountry, h1, h2]

/-- Witness for C4: the override conjunct at a one-entry table, and the
TLD conjunct at an empty table with an empty path. -/
theorem resolveCountry_priority_spec_witness :
    resolveCountry [("shop.example.com", "TR")] "shop.example.com" "/p/1" = "TR"
    ∧ resolveCountry [] "shop.example.de" "" =
        (match guessCountryFromHost "shop.example.de" with
          | some c => c | none => "UNK") :=
  ⟨resolveCountry_priority_spec.1 [("shop.example.com", "TR")]
      "shop.example.com" "/p/1" "TR" (by decide),
   resolveCountry_priority_spec.2.2.1 [] "shop.example.de" ""
      (by decide) (by decide)⟩

/-- Witness for C9: the all-malformed conjunct applied to a one-block page
whose block is truncated JSON. -/
theorem ldjson_malformed_skipped_witness :
    ldItemsOfBlocks ["\x7b\"name\": "] "u" "h" "DE" = [] :=
  ldjson_malformed_skipped.2.1 ["\x7b\"name\": "] "u" "h" "DE"
    (fun s hs => by
      rcases List.mem_singleton.mp hs with rfl
      cases hp : safeJsonParse "\x7b\"name\": " with
      | none => rfl
      | some v =>
        have hfalse : (safeJsonParse "\x7b\"name\": ").isSome = false := by decide
        rw [hp] at hfalse
        simp at hfalse)

end BeautyDrop
